/-
Verification of the statement-splitter / span-aggregator core
(`src/spans.py`, `src/splitting.py`) against its specification.

The Python code is shallowly embedded: strings are Lean `String`s
(manipulated through their `List Char` data so that everything reduces),
probabilities are rationals, Python dict-with-insertion-order becomes an
association list, and each Python function becomes a computable Lean `def`
with the same structure.
-/
import Mathlib

/-! ## Embedding of `src/spans.py` -/

/-- Tokenizer state machine for the regex `\S+`: scan the characters,
carrying the current position and (optionally) the start of the token in
progress; emit `(start, end)` for every maximal non-whitespace run.
Embeds the `finditer` loop of `_tokenize_with_spans` / `tokenize_with_spans`. -/
def tokAux : List Char → Nat → Option Nat → List (Nat × Nat)
  | [], _, none => []
  | [], i, some s => [(s, i)]
  | c :: cs, i, none =>
      if c.isWhitespace then tokAux cs (i + 1) none else tokAux cs (i + 1) (some i)
  | c :: cs, i, some s =>
      if c.isWhitespace then (s, i) :: tokAux cs (i + 1) none else tokAux cs (i + 1) (some s)

/-- `_tokenize_with_spans(text)`: whitespace tokens of `text` as
`(index, start, end)` triples (character offsets). -/
def tokenizeWithSpans (text : String) : List (Nat × Nat × Nat) :=
  (tokAux text.toList 0 none).enum

/-- First-occurrence substring search, position accumulator.
Embeds Python `str.find` (which returns the least index at which the
needle occurs, and `-1`, here `none`, when it does not occur). -/
def findSubAux (needle : List Char) : List Char → Nat → Option Nat
  | hay, i =>
      if needle.isPrefixOf hay then some i
      else
        match hay with
        | [] => none
        | _ :: t => findSubAux needle t (i + 1)

/-- `answer_text.find(orig)` as an `Option Nat`. -/
def findSub (hay needle : List Char) : Option Nat :=
  findSubAux needle hay 0

/-- Lexicographic order on spans, the order Python's `sorted` uses on
two-element lists `[start, end]`. -/
def spanLE (a b : Nat × Nat) : Prop :=
  a.1 < b.1 ∨ (a.1 = b.1 ∧ a.2 ≤ b.2)

instance : DecidableRel spanLE := fun a b => by
  unfold spanLE; infer_instance

instance : IsTotal (Nat × Nat) spanLE :=
  ⟨fun a b => by unfold spanLE; omega⟩

instance : IsTrans (Nat × Nat) spanLE :=
  ⟨fun a b c => by unfold spanLE; omega⟩

/-- The loop body of `_merge_adjacent`: `cur` is the last (still mutable)
element of `out`; a span whose start is `<= cur.2` is coalesced into `cur`
(`out[-1][1] = max(le, e)`), otherwise `cur` is frozen and the span starts
a new run. -/
def mergeLoop (cur : Nat × Nat) : List (Nat × Nat) → List (Nat × Nat)
  | [] => [cur]
  | (s, e) :: rest =>
      if s ≤ cur.2 then mergeLoop (cur.1, max cur.2 e) rest
      else cur :: mergeLoop (s, e) rest

/-- `_merge_adjacent(spans)`: sort the spans (Python `sorted`, i.e.
lexicographically) and coalesce adjacent/overlapping runs. -/
def mergeAdjacent (spans : List (Nat × Nat)) : List (Nat × Nat) :=
  match List.insertionSort spanLE spans with
  | [] => []
  | x :: rest => mergeLoop x rest

/-- Python `max(vals)` on a non-empty list (`0` is a don't-care default:
`_combine` only evaluates it on non-empty lists). -/
def listMax : List ℚ → ℚ
  | [] => 0
  | x :: xs => xs.foldl max x

/-- Python `min(vals)` on a non-empty list. -/
def listMin : List ℚ → ℚ
  | [] => 0
  | x :: xs => xs.foldl min x

/-- `_combine(vals, mode)`: `0.5` for an empty list, else mean / min / max
with `"max"` as the default branch. -/
def combineVals (vals : List ℚ) (mode : String) : ℚ :=
  if vals = [] then 1/2
  else if mode = "mean" then vals.sum / (vals.length : ℚ)
  else if mode = "min" then listMin vals
  else listMax vals

/-- `float(probs[i]) if i < len(probs) else 0.5`. -/
def probAt (probs : List ℚ) (i : Nat) : ℚ :=
  if h : i < probs.length then probs.get ⟨i, h⟩ else 1/2

/-- `acc.setdefault(key, []).append(p)` on an insertion-ordered map:
append `p` to the existing entry for `key`, or add a fresh entry at the
end. -/
def accAdd (acc : List ((Nat × Nat) × List ℚ)) (key : Nat × Nat) (p : ℚ) :
    List ((Nat × Nat) × List ℚ) :=
  match acc with
  | [] => [(key, [p])]
  | (k, vs) :: rest =>
      if k = key then (k, vs ++ [p]) :: rest else (k, vs) :: accAdd rest key p

/-- One iteration of the `for orig, v in zip(originals, verifs)` loop of
`compute_spans`: skip a verification without `token_probs`
(modelled as `none`), skip an anchor whose substring is not found in the
answer, otherwise accumulate one probability per anchor token at the
translated span `(base+s, base+e)`. -/
def accPair (answer : List Char) (acc : List ((Nat × Nat) × List ℚ))
    (orig : String) (v : Option (List ℚ)) : List ((Nat × Nat) × List ℚ) :=
  match v with
  | none => acc
  | some probs =>
      match findSub answer orig.toList with
      | none => acc
      | some base =>
          (tokenizeWithSpans orig).foldl
            (fun a t => accAdd a (base + t.2.1, base + t.2.2) (probAt probs t.1)) acc

/-- `compute_spans(answer_text, originals, verifs, threshold, combine)`:
returns `(hard, soft)` where `soft` pairs each distinct absolute token
span with its combined probability (in first-encounter order) and `hard`
is the merged list of soft spans whose probability reaches `threshold`. -/
def computeSpans (answer : String) (originals : List String)
    (verifs : List (Option (List ℚ))) (threshold : ℚ := 1/2)
    (combine : String := "max") :
    List (Nat × Nat) × List ((Nat × Nat) × ℚ) :=
  let acc := (originals.zip verifs).foldl
    (fun a ov => accPair answer.toList a ov.1 ov.2) []
  let soft := acc.map fun kv => (kv.1, combineVals kv.2 combine)
  let hard := (soft.filter fun d => decide (threshold ≤ d.2)).map Prod.fst
  (mergeAdjacent hard, soft)

/-! ## Generic helper lemmas -/

/-- An invariant preserved by every step of a fold (for elements of the
folded list) is preserved by the fold. -/
theorem foldlPreserve {α β : Type} (step : α → β → α) (P : α → Prop) :
    ∀ (l : List β), (∀ x b, b ∈ l → P x → P (step x b)) →
      ∀ (a : α), P a → P (l.foldl step a) := by
  intro l
  induction l with
  | nil => intro _ a ha; exact ha
  | cons b t ih =>
      intro hstep a ha
      exact ih (fun x b' hb' hx => hstep x b' (List.mem_cons_of_mem _ hb') hx)
        (step a b) (hstep a b (List.mem_cons_self _ _) ha)

/-- Facts about membership in `List.enumFrom`: the payload is a member of
the underlying list and the index is in range. -/
theorem mem_enumFrom_facts {α : Type} :
    ∀ (l : List α) (k : Nat) (p : Nat × α),
      p ∈ l.enumFrom k → p.2 ∈ l ∧ k ≤ p.1 ∧ p.1 < k + l.length := by
  intro l
  induction l with
  | nil => intro k p hp; cases hp
  | cons x t ih =>
      intro k p hp
      rcases hp with _ | ⟨_, hp⟩
      · exact ⟨List.mem_cons_self _ _, Nat.le_refl _, by simp⟩
      · obtain ⟨h1, h2, h3⟩ := ih (k + 1) p hp
        exact ⟨List.mem_cons_of_mem _ h1, by omega, by simp; omega⟩

/-- `foldl max` over rationals picks an element of the list. -/
theorem foldl_max_mem : ∀ (xs : List ℚ) (x : ℚ), xs.foldl max x ∈ x :: xs := by
  intro xs
  induction xs with
  | nil => intro x; exact List.mem_cons_self _ _
  | cons y ys ih =>
      intro x
      have h := ih (max x y)
      rcases max_choice x y with hm | hm <;> rw [hm] at h <;>
        rcases List.mem_cons.mp h with h' | h' <;> simp [h', List.foldl_cons, hm]

/-- `foldl max` bounds every element of the list from above. -/
theorem le_foldl_max : ∀ (xs : List ℚ) (x : ℚ), ∀ y ∈ x :: xs, y ≤ xs.foldl max x := by
  intro xs
  induction xs with
  | nil =>
      intro x y hy
      rcases List.mem_cons.mp hy with h | h
      · subst h; exact le_refl _
      · cases h
  | cons z zs ih =>
      intro x y hy
      rw [List.foldl_cons]
      have hhead : max x z ≤ zs.foldl max (max x z) :=
        ih (max x z) (max x z) (List.mem_cons_self _ _)
      rcases List.mem_cons.mp hy with h | h
      · subst h; exact le_trans (le_max_left y z) hhead
      · rcases List.mem_cons.mp h with h' | h'
        · subst h'; exact le_trans (le_max_right x y) hhead
        · exact ih (max x z) y (List.mem_cons_of_mem _ h')

/-- `foldl min` over rationals picks an element of the list. -/
theorem foldl_min_mem : ∀ (xs : List ℚ) (x : ℚ), xs.foldl min x ∈ x :: xs := by
  intro xs
  induction xs with
  | nil => intro x; exact List.mem_cons_self _ _
  | cons y ys ih =>
      intro x
      have h := ih (min x y)
      rcases min_choice x y with hm | hm <;> rw [hm] at h <;>
        rcases List.mem_cons.mp h with h' | h' <;> simp [h', List.foldl_cons, hm]

/-- `foldl min` bounds every element of the list from below. -/
theorem foldl_min_le : ∀ (xs : List ℚ) (x : ℚ), ∀ y ∈ x :: xs, xs.foldl min x ≤ y := by
  intro xs
  induction xs with
  | nil =>
      intro x y hy
      rcases List.mem_cons.mp hy with h | h
      · subst h; exact le_refl _
      · cases h
  | cons z zs ih =>
      intro x y hy
      rw [List.foldl_cons]
      have hhead : zs.foldl min (min x z) ≤ min x z :=
        ih (min x z) (min x z) (List.mem_cons_self _ _)
      rcases List.mem_cons.mp hy with h | h
      · subst h; exact le_trans hhead (min_le_left y z)
      · rcases List.mem_cons.mp h with h' | h'
        · subst h'; exact le_trans hhead (min_le_right x y)
        · exact ih (min x z) y (List.mem_cons_of_mem _ h')

/-! ## Properties of the span merger -/

/-- `mergeLoop` always emits the pending span's start as the head start,
with an end at least the pending end. -/
theorem mergeLoop_head : ∀ (rest : List (Nat × Nat)) (cur : Nat × Nat),
    ∃ e2 tl, mergeLoop cur rest = (cur.1, e2) :: tl ∧ cur.2 ≤ e2 := by
  intro rest
  induction rest with
  | nil => intro cur; exact ⟨cur.2, [], rfl, le_refl _⟩
  | cons p rest ih =>
      intro cur
      obtain ⟨s, e⟩ := p
      by_cases hs : s ≤ cur.2
      · obtain ⟨e2, tl, heq, hle⟩ := ih (cur.1, max cur.2 e)
        exact ⟨e2, tl, by simp [mergeLoop, hs, heq], le_trans (le_max_left _ _) hle⟩
      · exact ⟨cur.2, mergeLoop (s, e) rest, by simp [mergeLoop, hs], le_refl _⟩

/-- `mergeLoop` output is canonical: every span is non-degenerate and
consecutive spans are separated by a gap. -/
theorem mergeLoop_canonical : ∀ (rest : List (Nat × Nat)) (cur : Nat × Nat),
    cur.1 < cur.2 → (∀ p ∈ rest, p.1 < p.2) →
    (∀ p ∈ mergeLoop cur rest, p.1 < p.2) ∧
      (mergeLoop cur rest).Chain' (fun a b => a.2 < b.1) := by
  intro rest
  induction rest with
  | nil =>
      intro cur hcur _
      constructor
      · intro p hp
        rcases List.mem_cons.mp hp with h | h
        · subst h; exact hcur
        · cases h
      · exact List.chain'_singleton _
  | cons q rest ih =>
      intro cur hcur hrest
      obtain ⟨s, e⟩ := q
      have hse : s < e := hrest (s, e) (List.mem_cons_self _ _)
      have hrest' : ∀ p ∈ rest, p.1 < p.2 := fun p hp => hrest p (List.mem_cons_of_mem _ hp)
      by_cases hs : s ≤ cur.2
      · have hcur' : (cur.1, max cur.2 e).1 < (cur.1, max cur.2 e).2 :=
          lt_of_lt_of_le hcur (le_max_left _ _)
        have h := ih (cur.1, max cur.2 e) hcur' hrest'
        simpa [mergeLoop, hs] using h
      · have h := ih (s, e) hse hrest'
        obtain ⟨e2, tl, heq, _⟩ := mergeLoop_head rest (s, e)
        constructor
        · intro p hp
          rw [show mergeLoop cur ((s, e) :: rest) = cur :: mergeLoop (s, e) rest by
            simp [mergeLoop, hs]] at hp
          rcases List.mem_cons.mp hp with h' | h'
          · subst h'; exact hcur
          · exact h.1 p h'
        · rw [show mergeLoop cur ((s, e) :: rest) = cur :: mergeLoop (s, e) rest by
            simp [mergeLoop, hs], heq]
          exact List.Chain'.cons (by simpa using Nat.lt_of_not_le hs) (heq ▸ h.2)

/-- `_merge_adjacent` of any list of non-degenerate spans is canonical:
spans are non-degenerate and consecutive spans are separated. -/
theorem mergeAdjacent_canonical (spans : List (Nat × Nat))
    (h : ∀ p ∈ spans, p.1 < p.2) :
    (∀ p ∈ mergeAdjacent spans, p.1 < p.2) ∧
      (mergeAdjacent spans).Chain' (fun a b => a.2 < b.1) := by
  unfold mergeAdjacent
  have hmem : ∀ p ∈ List.insertionSort spanLE spans, p.1 < p.2 := fun p hp =>
    h p ((List.perm_insertionSort spanLE spans).mem_iff.mp hp)
  cases hsort : List.insertionSort spanLE spans with
  | nil => exact ⟨fun p hp => absurd hp (List.not_mem_nil p), List.chain'_nil⟩
  | cons x rest =>
      have hx : x.1 < x.2 := hmem x (hsort ▸ List.mem_cons_self _ _)
      have hr : ∀ p ∈ rest, p.1 < p.2 := fun p hp =>
        hmem p (hsort ▸ List.mem_cons_of_mem _ hp)
      exact mergeLoop_canonical rest x hx hr

/-! ## Properties of the accumulator -/

/-- Every key of `accAdd acc k p` is `k` or an existing key. -/
theorem accAdd_key : ∀ (acc : List ((Nat × Nat) × List ℚ)) (k : Nat × Nat) (p : ℚ)
    (kv : (Nat × Nat) × List ℚ), kv ∈ accAdd acc k p →
    kv.1 = k ∨ kv.1 ∈ acc.map Prod.fst := by
  intro acc
  induction acc with
  | nil =>
      intro k p kv hkv
      rcases List.mem_cons.mp hkv with h | h
      · left; rw [h]
      · cases h
  | cons hd tl ih =>
      intro k p kv hkv
      obtain ⟨k0, vs⟩ := hd
      by_cases hk : k0 = k
      · simp only [accAdd, if_pos hk] at hkv
        rcases List.mem_cons.mp hkv with h | h
        · left; rw [h, hk]
        · right; exact List.mem_map_of_mem _ (List.mem_cons_of_mem _ h)
      · simp only [accAdd, if_neg hk] at hkv
        rcases List.mem_cons.mp hkv with h | h
        · right; rw [h]; exact List.mem_map_of_mem _ (List.mem_cons_self _ _)
        · rcases ih k p kv h with h' | h'
          · left; exact h'
          · right
            simp only [List.map_cons]
            exact List.mem_cons_of_mem _ h'

/-- Every value stored in `accAdd acc k p` is `p` or a previously stored
value. -/
theorem accAdd_val : ∀ (acc : List ((Nat × Nat) × List ℚ)) (k : Nat × Nat) (p : ℚ)
    (kv : (Nat × Nat) × List ℚ), kv ∈ accAdd acc k p →
    ∀ x ∈ kv.2, x = p ∨ ∃ kv' ∈ acc, x ∈ kv'.2 := by
  intro acc
  induction acc with
  | nil =>
      intro k p kv hkv x hx
      rcases List.mem_cons.mp hkv with h | h
      · subst h
        simp only [List.mem_singleton] at hx
        left; exact hx
      · cases h
  | cons hd tl ih =>
      intro k p kv hkv x hx
      obtain ⟨k0, vs⟩ := hd
      by_cases hk : k0 = k
      · simp only [accAdd, if_pos hk] at hkv
        rcases List.mem_cons.mp hkv with h | h
        · subst h
          simp only [List.mem_append, List.mem_singleton] at hx
          rcases hx with h' | h'
          · right; exact ⟨(k0, vs), List.mem_cons_self _ _, h'⟩
          · left; exact h'
        · right; exact ⟨kv, List.mem_cons_of_mem _ h, hx⟩
      · simp only [accAdd, if_neg hk] at hkv
        rcases List.mem_cons.mp hkv with h | h
        · subst h; right; exact ⟨(k0, vs), List.mem_cons_self _ _, hx⟩
        · rcases ih k p kv h x hx with h' | ⟨kv', hkv', hx'⟩
          · left; exact h'
          · right; exact ⟨kv', List.mem_cons_of_mem _ hkv', hx'⟩

/-- Token spans produced by the tokenizer state machine are
non-degenerate (`start < end`). -/
theorem tokAux_lt : ∀ (cs : List Char) (i : Nat) (st : Option Nat),
    (∀ s, st = some s → s < i) → ∀ p ∈ tokAux cs i st, p.1 < p.2 := by
  intro cs
  induction cs with
  | nil =>
      intro i st hst p hp
      cases st with
      | none => cases hp
      | some s =>
          simp only [tokAux, List.mem_singleton] at hp
          subst hp
          exact hst s rfl
  | cons c t ih =>
      intro i st hst p hp
      cases st with
      | none =>
          simp only [tokAux] at hp
          by_cases hw : c.isWhitespace
          · rw [if_pos hw] at hp
            exact ih (i + 1) none (by intro s h; cases h) p hp
          · rw [if_neg hw] at hp
            exact ih (i + 1) (some i) (by intro s h; cases h; omega) p hp
      | some s =>
          simp only [tokAux] at hp
          by_cases hw : c.isWhitespace
          · rw [if_pos hw] at hp
            rcases List.mem_cons.mp hp with h | h
            · subst h; exact hst s rfl
            · exact ih (i + 1) none (by intro s' h'; cases h') p h
          · rw [if_neg hw] at hp
            refine ih (i + 1) (some s) ?_ p hp
            intro s' h'
            cases h'
            exact Nat.lt_succ_of_lt (hst s rfl)

/-- Every token of `tokenizeWithSpans` has a non-degenerate span and an
index below the token count. -/
theorem tokenizeWithSpans_facts (text : String) :
    ∀ t ∈ tokenizeWithSpans text,
      t.2.1 < t.2.2 ∧ t.1 < (tokenizeWithSpans text).length := by
  intro t ht
  have h := mem_enumFrom_facts (tokAux text.toList 0 none) 0 t ht
  refine ⟨tokAux_lt text.toList 0 none (by intro s h'; cases h') t.2 h.1, ?_⟩
  have : (tokenizeWithSpans text).length = (tokAux text.toList 0 none).length := by
    simp [tokenizeWithSpans]
  omega

/-- One `accPair` step preserves the "all keys are non-degenerate spans"
invariant. -/
theorem accPair_keys_lt (answer : List Char) (acc : List ((Nat × Nat) × List ℚ))
    (orig : String) (v : Option (List ℚ))
    (hacc : ∀ kv ∈ acc, kv.1.1 < kv.1.2) :
    ∀ kv ∈ accPair answer acc orig v, kv.1.1 < kv.1.2 := by
  cases v with
  | none => exact hacc
  | some probs =>
      cases hf : findSub answer orig.toList with
      | none =>
          have heq : accPair answer acc orig (some probs) = acc := by
            unfold accPair; rw [hf]
          rw [heq]; exact hacc
      | some base =>
          have heq : accPair answer acc orig (some probs) =
              (tokenizeWithSpans orig).foldl
                (fun a t => accAdd a (base + t.2.1, base + t.2.2) (probAt probs t.1)) acc := by
            unfold accPair; rw [hf]
          rw [heq]
          refine foldlPreserve _
            (fun (a : List ((Nat × Nat) × List ℚ)) => ∀ kv ∈ a, kv.1.1 < kv.1.2)
            _ ?_ acc hacc
          intro a t ht ha kv hkv
          rcases accAdd_key a _ _ kv hkv with h | h
          · have hts := (tokenizeWithSpans_facts orig t ht).1
            rw [h]
            simp only []
            omega
          · obtain ⟨kv', hkv', hfst⟩ := List.mem_map.mp h
            have hlt := ha kv' hkv'
            rw [← hfst]
            exact hlt

/-- Every key accumulated by `compute_spans` is a non-degenerate span. -/
theorem computeSpans_acc_keys (answer : String) (originals : List String)
    (verifs : List (Option (List ℚ))) :
    ∀ kv ∈ (originals.zip verifs).foldl
        (fun a ov => accPair answer.toList a ov.1 ov.2) ([] : List ((Nat × Nat) × List ℚ)),
      kv.1.1 < kv.1.2 := by
  refine foldlPreserve _
    (fun (acc : List ((Nat × Nat) × List ℚ)) => ∀ kv ∈ acc, kv.1.1 < kv.1.2)
    _ ?_ [] ?_
  · intro acc ov _ hacc
    exact accPair_keys_lt answer.toList acc ov.1 ov.2 hacc
  · intro kv hkv; cases hkv

/-! ## Claim C1: hard-label merging -/

/-- C1. Hard-label merging: `_merge_adjacent` sorts the kept spans by
start offset (lexicographic sort, hence sorted by start, and a
permutation of the input) and coalesces a next span into the running
merged span exactly when its start is `<=` the running end, taking the
max of the ends; in particular `[[0,3],[3,6],[10,12]]` merges to
`[[0,6],[10,12]]`. -/
theorem claim1_hard_label_merging :
    mergeAdjacent [(0, 3), (3, 6), (10, 12)] = [(0, 6), (10, 12)]
    ∧ (∀ spans : List (Nat × Nat),
        List.Sorted (fun a b => a.1 ≤ b.1) (List.insertionSort spanLE spans)
        ∧ List.Perm (List.insertionSort spanLE spans) spans)
    ∧ (∀ (cur : Nat × Nat) (s e : Nat) (rest : List (Nat × Nat)),
        mergeLoop cur ((s, e) :: rest) =
          if s ≤ cur.2 then mergeLoop (cur.1, max cur.2 e) rest
          else cur :: mergeLoop (s, e) rest) := by
  refine ⟨by decide, ?_, ?_⟩
  · intro spans
    refine ⟨?_, List.perm_insertionSort spanLE spans⟩
    have h := List.sorted_insertionSort spanLE spans
    exact h.imp (fun hab => by rcases hab with h1 | ⟨h1, _⟩ <;> omega)
  · intro cur s e rest
    rfl

/-! ## Claim C10: hard labels are canonical -/

/-- C10. The hard-label list is canonical: every emitted span satisfies
`start < end` and every consecutive pair satisfies
`next.start > previous.end` (so hard labels are sorted and pairwise
separated — no two overlap or touch). -/
theorem claim10_hard_labels_canonical (answer : String) (originals : List String)
    (verifs : List (Option (List ℚ))) (threshold : ℚ) (mode : String) :
    (∀ p ∈ (computeSpans answer originals verifs threshold mode).1, p.1 < p.2)
    ∧ ((computeSpans answer originals verifs threshold mode).1).Chain'
        (fun a b => a.2 < b.1) := by
  have hkeys := computeSpans_acc_keys answer originals verifs
  have hpre : ∀ p ∈ (((((originals.zip verifs).foldl
        (fun a ov => accPair answer.toList a ov.1 ov.2) []).map
          (fun kv => (kv.1, combineVals kv.2 mode))).filter
            (fun d => decide (threshold ≤ d.2))).map Prod.fst), p.1 < p.2 := by
    intro p hp
    obtain ⟨d, hd, hdp⟩ := List.mem_map.mp hp
    have hd' := List.mem_of_mem_filter hd
    obtain ⟨kv, hkv, hkvd⟩ := List.mem_map.mp hd'
    have hk := hkeys kv hkv
    rw [← hdp, ← hkvd]
    exact hk
  exact mergeAdjacent_canonical _ hpre

/-- Witness for C10 at a concrete input: the hard labels of a two-token
answer come out as the canonical list `[(0,2),(3,5)]`. -/
theorem claim10_hard_labels_canonical_witness :
    0 < 2 ∧ List.Chain' (fun a b : Nat × Nat => a.2 < b.1) [(0, 2), (3, 5)] := by
  have h := claim10_hard_labels_canonical "ab cd" ["ab cd"] [some [1, 1]] 1 "max"
  have heq : (computeSpans "ab cd" ["ab cd"] [some [1, 1]] 1 "max").1 = [(0, 2), (3, 5)] := by
    decide
  exact ⟨h.1 (0, 2) (by rw [heq]; decide), by rw [← heq]; exact h.2⟩

/-! ## Claim C6: combine-policy semantics -/

/-- C6. For a non-empty accumulated list, `_combine` returns the maximum
under `"max"`, the arithmetic mean under `"mean"` and the minimum under
`"min"`; in particular `[0.2, 0.9]` combines to `0.9` / `0.55` / `0.2`. -/
theorem claim6_combine_policy :
    (∀ vals : List ℚ, vals ≠ [] →
      (combineVals vals "max" ∈ vals ∧ ∀ x ∈ vals, x ≤ combineVals vals "max")
      ∧ (combineVals vals "min" ∈ vals ∧ ∀ x ∈ vals, combineVals vals "min" ≤ x)
      ∧ combineVals vals "mean" = vals.sum / (vals.length : ℚ))
    ∧ combineVals [1/5, 9/10] "max" = 9/10
    ∧ combineVals [1/5, 9/10] "mean" = 11/20
    ∧ combineVals [1/5, 9/10] "min" = 1/5 := by
  have hmax : ∀ vals : List ℚ, vals ≠ [] → combineVals vals "max" = listMax vals := by
    intro vals hne
    unfold combineVals
    rw [if_neg hne, if_neg (by decide : ¬("max" : String) = "mean"),
      if_neg (by decide : ¬("max" : String) = "min")]
  have hmin : ∀ vals : List ℚ, vals ≠ [] → combineVals vals "min" = listMin vals := by
    intro vals hne
    unfold combineVals
    rw [if_neg hne, if_neg (by decide : ¬("min" : String) = "mean"),
      if_pos rfl]
  have hmean : ∀ vals : List ℚ, vals ≠ [] →
      combineVals vals "mean" = vals.sum / (vals.length : ℚ) := by
    intro vals hne
    unfold combineVals
    rw [if_neg hne, if_pos rfl]
  refine ⟨?_, ?_, ?_, ?_⟩
  · intro vals hne
    obtain ⟨x, xs, rfl⟩ := List.exists_cons_of_ne_nil hne
    refine ⟨⟨?_, ?_⟩, ⟨?_, ?_⟩, hmean _ hne⟩
    · rw [hmax _ hne]; exact foldl_max_mem xs x
    · intro y hy; rw [hmax _ hne]; exact le_foldl_max xs x y hy
    · rw [hmin _ hne]; exact foldl_min_mem xs x
    · intro y hy; rw [hmin _ hne]; exact foldl_min_le xs x y hy
  · rw [hmax _ (by simp)]
    show max (1/5 : ℚ) (9/10) = 9/10
    exact max_eq_right (by norm_num)
  · rw [hmean _ (by simp)]
    norm_num
  · rw [hmin _ (by simp)]
    show min (1/5 : ℚ) (9/10) = 1/5
    exact min_eq_left (by norm_num)

/-- Witness for C6 at a concrete non-empty list. -/
theorem claim6_combine_policy_witness :
    combineVals [1, 2] "max" ∈ ([1, 2] : List ℚ) :=
  (claim6_combine_policy.1 [1, 2] (by decide)).1.1

/-! ## Claim C2: threshold inclusivity -/

/-- The keys of `accAdd acc k p`: unchanged when `k` was present,
extended by `k` at the end otherwise. -/
theorem accAdd_keys_map : ∀ (acc : List ((Nat × Nat) × List ℚ)) (k : Nat × Nat) (p : ℚ),
    (accAdd acc k p).map Prod.fst =
      if k ∈ acc.map Prod.fst then acc.map Prod.fst else acc.map Prod.fst ++ [k] := by
  intro acc
  induction acc with
  | nil => intro k p; simp [accAdd]
  | cons hd tl ih =>
      intro k p
      obtain ⟨k0, vs⟩ := hd
      by_cases hk : k0 = k
      · subst hk
        simp [accAdd]
      · simp only [accAdd, if_neg hk, List.map_cons]
        rw [ih k p]
        by_cases hmem : k ∈ tl.map Prod.fst
        · rw [if_pos hmem, if_pos (by simp [hmem])]
        · have hnotin : ¬ k ∈ (k0, vs).fst :: tl.map Prod.fst := by
            intro hc
            rcases List.mem_cons.mp hc with h | h
            · exact hk h.symm
            · exact hmem h
          rw [if_neg hmem, if_neg hnotin, List.cons_append]

/-- `accAdd` preserves distinctness of the accumulated keys. -/
theorem accAdd_keys_nodup (acc : List ((Nat × Nat) × List ℚ)) (k : Nat × Nat) (p : ℚ)
    (h : (acc.map Prod.fst).Nodup) : ((accAdd acc k p).map Prod.fst).Nodup := by
  rw [accAdd_keys_map]
  by_cases hmem : k ∈ acc.map Prod.fst
  · rwa [if_pos hmem]
  · rw [if_neg hmem]
    exact List.Nodup.append h (List.nodup_singleton k)
      (fun a ha hb => hmem ((List.mem_singleton.mp hb) ▸ ha))

/-- `accPair` preserves any accumulator invariant that `accAdd` preserves. -/
theorem accPair_preserve (answer : List Char) (orig : String) (v : Option (List ℚ))
    (P : List ((Nat × Nat) × List ℚ) → Prop)
    (hAdd : ∀ acc k p, P acc → P (accAdd acc k p)) :
    ∀ acc, P acc → P (accPair answer acc orig v) := by
  intro acc hacc
  cases v with
  | none => exact hacc
  | some probs =>
      cases hf : findSub answer orig.toList with
      | none =>
          have heq : accPair answer acc orig (some probs) = acc := by
            unfold accPair; rw [hf]
          rw [heq]; exact hacc
      | some base =>
          have heq : accPair answer acc orig (some probs) =
              (tokenizeWithSpans orig).foldl
                (fun a t => accAdd a (base + t.2.1, base + t.2.2) (probAt probs t.1)) acc := by
            unfold accPair; rw [hf]
          rw [heq]
          exact foldlPreserve _ P _ (fun x t _ hx => hAdd x _ _ hx) acc hacc

/-- The keys accumulated by `compute_spans` are pairwise distinct. -/
theorem computeSpans_acc_nodup (answer : String) (originals : List String)
    (verifs : List (Option (List ℚ))) :
    (((originals.zip verifs).foldl
        (fun a ov => accPair answer.toList a ov.1 ov.2)
        ([] : List ((Nat × Nat) × List ℚ))).map Prod.fst).Nodup := by
  refine foldlPreserve _
    (fun (acc : List ((Nat × Nat) × List ℚ)) => (acc.map Prod.fst).Nodup)
    _ ?_ [] (by simp)
  intro acc ov _ hacc
  exact accPair_preserve answer.toList ov.1 ov.2 _
    (fun a k p h => accAdd_keys_nodup a k p h) acc hacc

/-- In a list of pairs with distinct first components, the first
component determines the pair. -/
theorem nodup_keys_inj {α β : Type} : ∀ (l : List (α × β)),
    (l.map Prod.fst).Nodup → ∀ a ∈ l, ∀ b ∈ l, a.1 = b.1 → a = b := by
  intro l
  induction l with
  | nil => intro _ a ha; cases ha
  | cons x t ih =>
      intro hnd a ha b hb hfst
      rw [List.map_cons, List.nodup_cons] at hnd
      rcases List.mem_cons.mp ha with h1 | h1 <;> rcases List.mem_cons.mp hb with h2 | h2
      · rw [h1, h2]
      · exfalso
        apply hnd.1
        have hx : x.1 = b.1 := by rw [← h1]; exact hfst
        rw [hx]
        exact List.mem_map_of_mem Prod.fst h2
      · exfalso
        apply hnd.1
        have hx : x.1 = a.1 := by rw [← h2]; exact hfst.symm
        rw [hx]
        exact List.mem_map_of_mem Prod.fst h1
      · exact ih hnd.2 a h1 b h2 hfst

/-- C2. Threshold inclusivity: the hard labels are exactly the merge of
the soft spans whose combined probability is `>= threshold`, and a soft
span's key enters the pre-merge hard list if and only if its probability
reaches the threshold (inclusive boundary). -/
theorem claim2_threshold_inclusivity (answer : String) (originals : List String)
    (verifs : List (Option (List ℚ))) (threshold : ℚ) (mode : String) :
    (computeSpans answer originals verifs threshold mode).1
      = mergeAdjacent ((((computeSpans answer originals verifs threshold mode).2).filter
          (fun d => decide (threshold ≤ d.2))).map Prod.fst)
    ∧ ∀ d ∈ (computeSpans answer originals verifs threshold mode).2,
        (d.1 ∈ (((computeSpans answer originals verifs threshold mode).2).filter
          (fun d => decide (threshold ≤ d.2))).map Prod.fst ↔ threshold ≤ d.2) := by
  constructor
  · rfl
  · intro d hd
    have hnodup : (((computeSpans answer originals verifs threshold mode).2).map Prod.fst).Nodup := by
      show ((((originals.zip verifs).foldl
        (fun a ov => accPair answer.toList a ov.1 ov.2) []).map
          (fun kv => (kv.1, combineVals kv.2 mode))).map Prod.fst).Nodup
      rw [List.map_map]
      exact computeSpans_acc_nodup answer originals verifs
    constructor
    · intro hmem
      obtain ⟨d', hd', hfst⟩ := List.mem_map.mp hmem
      have hfil : decide (threshold ≤ d'.2) = true := (List.mem_filter.mp hd').2
      have hd'' := (List.mem_filter.mp hd').1
      have : d' = d := nodup_keys_inj _ hnodup d' hd'' d hd hfst
      rw [← this]
      exact of_decide_eq_true hfil
    · intro hle
      exact List.mem_map_of_mem Prod.fst
        (List.mem_filter.mpr ⟨hd, decide_eq_true hle⟩)

/-- Witness for C2: a soft span whose probability exactly equals the
threshold is kept for the hard labels. -/
theorem claim2_threshold_inclusivity_witness :
    ((0, 2) : Nat × Nat) ∈ (((computeSpans "ab" ["ab"] [some [1]] 1 "max").2).filter
      (fun d => decide ((1 : ℚ) ≤ d.2))).map Prod.fst := by
  have h := (claim2_threshold_inclusivity "ab" ["ab"] [some [1]] 1 "max").2
    ((0, 2), 1) (by decide)
  exact h.mpr (by decide)

/-! ## Claim C3: anchor-not-found is silent -/

/-- `List.isPrefixOf` decides the "starts with" relation. -/
theorem isPrefixOf_eq_true_iff {α : Type} [DecidableEq α] :
    ∀ (l₁ l₂ : List α), l₁.isPrefixOf l₂ = true ↔ ∃ t, l₁ ++ t = l₂ := by
  intro l₁
  induction l₁ with
  | nil => intro l₂; simp [List.isPrefixOf]
  | cons a t ih =>
      intro l₂
      cases l₂ with
      | nil =>
          simp only [List.isPrefixOf]
          constructor
          · intro h; cases h
          · rintro ⟨t', ht'⟩; cases ht'
      | cons b t₂ =>
          simp only [List.isPrefixOf, Bool.and_eq_true, beq_iff_eq, ih t₂]
          constructor
          · rintro ⟨rfl, t', rfl⟩; exact ⟨t', rfl⟩
          · rintro ⟨t', ht'⟩
            injection ht' with h1 h2
            exact ⟨h1, t', h2⟩

/-- The substring search returns `none` exactly when the needle does not
occur anywhere in the haystack. -/
theorem findSubAux_none_iff (needle : List Char) :
    ∀ (hay : List Char) (i : Nat),
      findSubAux needle hay i = none ↔ ¬ ∃ s t, s ++ needle ++ t = hay := by
  intro hay
  induction hay with
  | nil =>
      intro i
      unfold findSubAux
      by_cases hp : needle.isPrefixOf [] = true
      · obtain ⟨t, ht⟩ := (isPrefixOf_eq_true_iff needle []).mp hp
        rw [if_pos hp]
        constructor
        · intro h; cases h
        · intro h
          exact absurd ⟨[], t, by simpa using ht⟩ h
      · rw [if_neg hp]
        refine ⟨fun _ => ?_, fun _ => rfl⟩
        rintro ⟨s, t, hst⟩
        have hs : s = [] := by
          cases s with
          | nil => rfl
          | cons x xs => cases hst
        subst hs
        exact hp ((isPrefixOf_eq_true_iff needle []).mpr ⟨t, by simpa using hst⟩)
  | cons c hs ih =>
      intro i
      unfold findSubAux
      by_cases hp : needle.isPrefixOf (c :: hs) = true
      · obtain ⟨t, ht⟩ := (isPrefixOf_eq_true_iff needle (c :: hs)).mp hp
        rw [if_pos hp]
        constructor
        · intro h; cases h
        · intro h
          exact absurd ⟨[], t, by simpa using ht⟩ h
      · rw [if_neg hp]
        rw [ih (i + 1)]
        constructor
        · intro h ⟨s, t, hst⟩
          cases s with
          | nil =>
              exact hp ((isPrefixOf_eq_true_iff needle (c :: hs)).mpr ⟨t, by simpa using hst⟩)
          | cons x xs =>
              injection hst with h1 h2
              exact h ⟨xs, t, h2⟩
        · intro h ⟨s, t, hst⟩
          exact h ⟨c :: s, t, by rw [← hst]; rfl⟩

/-- A pair whose anchor substring does not occur in the answer text
contributes nothing to the accumulator. -/
theorem accPair_not_found (answer : List Char) (acc : List ((Nat × Nat) × List ℚ))
    (orig : String) (v : Option (List ℚ))
    (h : ¬ List.IsInfix orig.toList answer) :
    accPair answer acc orig v = acc := by
  cases v with
  | none => rfl
  | some probs =>
      have hf : findSub answer orig.toList = none := by
        rw [findSub, findSubAux_none_iff]
        exact h
      unfold accPair
      rw [hf]

/-- `compute_spans` depends on the evidence only through the accumulator. -/
theorem computeSpans_congr_acc (answer : String)
    (originals originals' : List String)
    (verifs verifs' : List (Option (List ℚ))) (threshold : ℚ) (mode : String)
    (h : (originals.zip verifs).foldl
        (fun a ov => accPair answer.toList a ov.1 ov.2) ([] : List ((Nat × Nat) × List ℚ))
      = (originals'.zip verifs').foldl
        (fun a ov => accPair answer.toList a ov.1 ov.2) []) :
    computeSpans answer originals verifs threshold mode
      = computeSpans answer originals' verifs' threshold mode := by
  simp only [computeSpans]
  rw [h]

/-- C3. Anchor-not-found is silent: deleting an evidence pair whose
substring does not occur in the answer text (at any position of the
evidence list) leaves the aggregator's entire output unchanged — the pair
contributes no soft and no hard label, and the remaining pairs are
processed unaffected. -/
theorem claim3_anchor_not_found_silent (answer : String)
    (pre post : List String) (vpre vpost : List (Option (List ℚ)))
    (orig : String) (v : Option (List ℚ)) (threshold : ℚ) (mode : String)
    (hlen : pre.length = vpre.length)
    (hna : ¬ List.IsInfix orig.toList answer.toList) :
    computeSpans answer (pre ++ orig :: post) (vpre ++ v :: vpost) threshold mode
      = computeSpans answer (pre ++ post) (vpre ++ vpost) threshold mode := by
  apply computeSpans_congr_acc
  rw [List.zip_append hlen, List.zip_append hlen, List.zip_cons_cons,
    List.foldl_append, List.foldl_append, List.foldl_cons,
    accPair_not_found answer.toList _ orig v hna]

/-- Witness for C3 at a concrete input: an absent anchor `"zz"` leaves
the result equal to that of the empty evidence list. -/
theorem claim3_anchor_not_found_silent_witness :
    computeSpans "ab" ["zz"] [some [1]] 1 "max" = computeSpans "ab" [] [] 1 "max" :=
  claim3_anchor_not_found_silent "ab" [] [] [] [] "zz" (some [1]) 1 "max"
    (by decide) (by decide)

/-! ## Claim C4: probability-vector shape tolerance -/

/-- `probAt` is exactly `getD` with the neutral default `0.5`. -/
theorem probAt_eq_getD (probs : List ℚ) (i : Nat) : probAt probs i = probs.getD i (1/2) := by
  unfold probAt
  split
  · rename_i h
    rw [List.getD_eq_get _ _ h]
  · rename_i h
    rw [List.getD_eq_default _ _ (Nat.le_of_not_lt h)]

/-- Truncating the probability vector at index `n` does not change the
probabilities seen below `n`. -/
theorem probAt_take (probs : List ℚ) (n i : Nat) (h : i < n) :
    probAt (probs.take n) i = probAt probs i := by
  rw [probAt_eq_getD, probAt_eq_getD, List.getD_eq_get?, List.getD_eq_get?,
    List.get?_eq_getElem?, List.get?_eq_getElem?, List.getElem?_take_of_lt h]

/-- C4. Shape tolerance: the probability assigned to anchor token `i` is
`probs[i]` when `i < len(probs)` and the neutral `0.5` otherwise
(`probAt = getD 0.5`); probability entries beyond the anchor's token
count are ignored (truncating them changes nothing); and a 3-token anchor
with a single supplied probability `p0` contributes `[p0, 0.5, 0.5]`. -/
theorem claim4_prob_vector_shape :
    (∀ (probs : List ℚ) (i : Nat), probAt probs i = probs.getD i (1/2))
    ∧ (∀ (answer : List Char) (acc : List ((Nat × Nat) × List ℚ))
        (orig : String) (probs : List ℚ),
        accPair answer acc orig (some probs)
          = accPair answer acc orig (some (probs.take (tokenizeWithSpans orig).length)))
    ∧ (∀ p0 : ℚ, accPair ("a b c").toList [] "a b c" (some [p0])
        = [((0, 1), [p0]), ((2, 3), [1/2]), ((4, 5), [1/2])])
    ∧ (∀ p0 p1 p2 p3 : ℚ, accPair ("a b c").toList [] "a b c" (some [p0, p1, p2, p3])
        = [((0, 1), [p0]), ((2, 3), [p1]), ((4, 5), [p2])]) := by
  refine ⟨probAt_eq_getD, ?_, fun p0 => rfl, fun p0 p1 p2 p3 => rfl⟩
  intro answer acc orig probs
  cases hf : findSub answer orig.toList with
  | none =>
      have h1 : accPair answer acc orig (some probs) = acc := by
        unfold accPair; rw [hf]
      have h2 : accPair answer acc orig
          (some (probs.take (tokenizeWithSpans orig).length)) = acc := by
        unfold accPair; rw [hf]
      rw [h1, h2]
  | some base =>
      have h1 : accPair answer acc orig (some probs)
          = (tokenizeWithSpans orig).foldl
              (fun a t => accAdd a (base + t.2.1, base + t.2.2) (probAt probs t.1)) acc := by
        unfold accPair; rw [hf]
      have h2 : accPair answer acc orig
          (some (probs.take (tokenizeWithSpans orig).length))
          = (tokenizeWithSpans orig).foldl
              (fun a t => accAdd a (base + t.2.1, base + t.2.2)
                (probAt (probs.take (tokenizeWithSpans orig).length) t.1)) acc := by
        unfold accPair; rw [hf]
      rw [h1, h2]
      apply List.foldl_ext
      intro a t ht
      have hi := (tokenizeWithSpans_facts orig t ht).2
      rw [probAt_take probs _ t.1 hi]

/-! ## Claim C5: probability clamping -/

/-- Counterexample to C5 as stated: the aggregator does not clamp; a
supplied probability `2` is emitted unchanged in a soft label, outside
`[0, 1]`. -/
theorem claim5_probability_clamping_counterexample :
    (computeSpans "a" ["a"] [some [2]] 1 "max").2 = [((0, 1), 2)] ∧ ¬ ((2 : ℚ) ≤ 1) :=
  ⟨by decide, by decide⟩

/-- `probAt` stays in `[0,1]` when the supplied vector does. -/
theorem probAt_bounded (probs : List ℚ) (i : Nat)
    (h : ∀ x ∈ probs, 0 ≤ x ∧ x ≤ 1) :
    0 ≤ probAt probs i ∧ probAt probs i ≤ 1 := by
  unfold probAt
  split
  · exact h _ (probs.get_mem _ _)
  · norm_num

/-- `_combine` stays in `[0,1]` when every accumulated value does
(for every policy string). -/
theorem combineVals_bounded (vals : List ℚ) (mode : String)
    (h : ∀ x ∈ vals, 0 ≤ x ∧ x ≤ 1) :
    0 ≤ combineVals vals mode ∧ combineVals vals mode ≤ 1 := by
  by_cases hne : vals = []
  · subst hne
    unfold combineVals
    rw [if_pos rfl]
    norm_num
  · unfold combineVals
    rw [if_neg hne]
    by_cases hmean : mode = "mean"
    · rw [if_pos hmean]
      have hpos : (0 : ℚ) < vals.length := by
        have hlen := List.length_pos.mpr hne
        exact_mod_cast hlen
      constructor
      · exact div_nonneg (List.sum_nonneg (fun x hx => (h x hx).1)) (le_of_lt hpos)
      · rw [div_le_one hpos]
        calc vals.sum ≤ vals.length • (1 : ℚ) :=
              List.sum_le_card_nsmul vals 1 (fun x hx => (h x hx).2)
          _ = vals.length := by simp
    · rw [if_neg hmean]
      by_cases hmin : mode = "min"
      · rw [if_pos hmin]
        obtain ⟨x, xs, rfl⟩ := List.exists_cons_of_ne_nil hne
        have hmem : listMin (x :: xs) ∈ x :: xs := foldl_min_mem xs x
        exact h _ hmem
      · rw [if_neg hmin]
        obtain ⟨x, xs, rfl⟩ := List.exists_cons_of_ne_nil hne
        have hmem : listMax (x :: xs) ∈ x :: xs := foldl_max_mem xs x
        exact h _ hmem

/-- One `accPair` step preserves the "all stored values lie in `[0,1]`"
invariant, provided the supplied vector lies in `[0,1]`. -/
theorem accPair_vals_bounded (answer : List Char) (acc : List ((Nat × Nat) × List ℚ))
    (orig : String) (v : Option (List ℚ))
    (hv : ∀ probs, v = some probs → ∀ x ∈ probs, 0 ≤ x ∧ x ≤ 1)
    (hacc : ∀ kv ∈ acc, ∀ x ∈ kv.2, 0 ≤ x ∧ x ≤ 1) :
    ∀ kv ∈ accPair answer acc orig v, ∀ x ∈ kv.2, 0 ≤ x ∧ x ≤ 1 := by
  cases v with
  | none => exact hacc
  | some probs =>
      have hp : ∀ x ∈ probs, 0 ≤ x ∧ x ≤ 1 := hv probs rfl
      cases hf : findSub answer orig.toList with
      | none =>
          have heq : accPair answer acc orig (some probs) = acc := by
            unfold accPair; rw [hf]
          rw [heq]; exact hacc
      | some base =>
          have heq : accPair answer acc orig (some probs)
              = (tokenizeWithSpans orig).foldl
                  (fun a t => accAdd a (base + t.2.1, base + t.2.2) (probAt probs t.1)) acc := by
            unfold accPair; rw [hf]
          rw [heq]
          refine foldlPreserve _
            (fun (a : List ((Nat × Nat) × List ℚ)) => ∀ kv ∈ a, ∀ x ∈ kv.2, 0 ≤ x ∧ x ≤ 1)
            _ ?_ acc hacc
          intro a t _ ha kv hkv x hx
          rcases accAdd_val a _ _ kv hkv x hx with h | ⟨kv', hkv', hx'⟩
          · subst h; exact probAt_bounded probs t.1 hp
          · exact ha kv' hkv' x hx'

/-- C5 (amended). The aggregator itself never clamps (see the
counterexample); but whenever every supplied probability lies in `[0,1]`
— as the verifier's coercion step guarantees upstream — every emitted
soft label's probability lies in `[0,1]` (the neutral `0.5` default is
in range and every combine policy preserves the range). -/
theorem claim5_probability_clamping_amended (answer : String) (originals : List String)
    (verifs : List (Option (List ℚ))) (threshold : ℚ) (mode : String)
    (hin : ∀ v ∈ verifs, ∀ probs, v = some probs → ∀ x ∈ probs, 0 ≤ x ∧ x ≤ 1) :
    ∀ d ∈ (computeSpans answer originals verifs threshold mode).2,
      0 ≤ d.2 ∧ d.2 ≤ 1 := by
  intro d hd
  have hacc : ∀ kv ∈ (originals.zip verifs).foldl
      (fun a ov => accPair answer.toList a ov.1 ov.2) ([] : List ((Nat × Nat) × List ℚ)),
      ∀ x ∈ kv.2, 0 ≤ x ∧ x ≤ 1 := by
    refine foldlPreserve _
      (fun (acc : List ((Nat × Nat) × List ℚ)) => ∀ kv ∈ acc, ∀ x ∈ kv.2, 0 ≤ x ∧ x ≤ 1)
      _ ?_ [] (by intro kv hkv; cases hkv)
    intro acc ov hov hacc2
    have hv2 : ov.2 ∈ verifs := (List.of_mem_zip hov).2
    exact accPair_vals_bounded answer.toList acc ov.1 ov.2
      (fun probs hp => hin ov.2 hv2 probs hp) hacc2
  obtain ⟨kv, hkv, hd'⟩ := List.mem_map.mp hd
  rw [← hd']
  exact combineVals_bounded kv.2 mode (hacc kv hkv)

/-- Witness for the amended C5 at a concrete in-range input. -/
theorem claim5_probability_clamping_amended_witness :
    (0 : ℚ) ≤ 1 ∧ (1 : ℚ) ≤ 1 := by
  have hin : ∀ v ∈ [some [(1 : ℚ)]], ∀ probs, v = some probs →
      ∀ x ∈ probs, 0 ≤ x ∧ x ≤ 1 := by
    intro v hv probs hp x hx
    rw [List.mem_singleton] at hv
    subst hv
    injection hp with hp'
    subst hp'
    rw [List.mem_singleton] at hx
    subst hx
    exact ⟨by norm_num, by norm_num⟩
  exact claim5_probability_clamping_amended "ab" ["ab"] [some [1]] 1 "max" hin
    ((0, 2), 1) (by decide)

/-! ## Embedding of `src/splitting.py` -/

/-- The affirmative first-word set `YES_WORDS`. -/
def YES_WORDS : List String :=
  ["yes", "yeah", "yep", "certainly", "indeed", "affirmative", "correct", "true", "right"]

/-- The negative first-word set `NO_WORDS`. -/
def NO_WORDS : List String :=
  ["no", "nope", "nah", "false", "incorrect", "wrong"]

/-- `s.replace("…", " ")`. -/
def replaceEllipsis (cs : List Char) : List Char :=
  cs.map fun c => if c = '…' then ' ' else c

/-- Python `str.strip()`: drop leading and trailing whitespace. -/
def stripChars (cs : List Char) : List Char :=
  ((cs.dropWhile Char.isWhitespace).reverse.dropWhile Char.isWhitespace).reverse

/-- `re.sub(r"\s+", " ", ...)` as a one-pass state machine: the first
character of every whitespace run becomes a single space, the rest of the
run is skipped. -/
def collapseWSAux : Bool → List Char → List Char
  | _, [] => []
  | prevWS, c :: cs =>
      if c.isWhitespace then
        if prevWS then collapseWSAux true cs else ' ' :: collapseWSAux true cs
      else c :: collapseWSAux false cs

/-- `_clean(s)`: replace ellipsis glyphs by spaces, strip, collapse
whitespace runs to single spaces. -/
def clean (s : String) : String :=
  ⟨collapseWSAux false (stripChars (replaceEllipsis s.toList))⟩

/-- Python `str.split()` (no separator): maximal non-whitespace runs,
accumulated in reverse in `cur`. -/
def splitWordsAux : List Char → List Char → List (List Char)
  | cur, [] => if cur = [] then [] else [cur.reverse]
  | cur, c :: cs =>
      if c.isWhitespace then
        if cur = [] then splitWordsAux [] cs else cur.reverse :: splitWordsAux [] cs
      else splitWordsAux (c :: cur) cs

/-- `s.split()` as a list of strings. -/
def splitWords (s : String) : List String :=
  (splitWordsAux [] s.toList).map fun w => ⟨w⟩

/-- `(s.split()[:1] or [""])[0]`: the first whitespace-delimited token,
or `""` for a blank string. -/
def firstWord (s : String) : String :=
  match splitWords s with
  | [] => ""
  | w :: _ => w

/-- Python `str.lower()` (ASCII case folding). -/
def lowerStr (s : String) : String := ⟨s.toList.map Char.toLower⟩

/-- Python `str.strip()` on strings. -/
def pyStrip (s : String) : String := ⟨stripChars s.toList⟩

/-- `s[n:]` by code points. -/
def strDrop (s : String) (n : Nat) : String := ⟨s.toList.drop n⟩

/-- `s[:-n]` by code points. -/
def strDropRight (s : String) (n : Nat) : String :=
  ⟨s.toList.take (s.toList.length - n)⟩

/-- `s.startswith(p)`. -/
def strStartsWith (s p : String) : Bool := p.toList.isPrefixOf s.toList

/-- `s.endswith(p)`. -/
def strEndsWith (s p : String) : Bool := p.toList.isSuffixOf s.toList

/-- `' '.join(ws)`. -/
def joinWords : List String → String
  | [] => ""
  | [w] => w
  | w :: ws => w ++ " " ++ joinWords ws

/-- `re.match(r"^\s*(w1|w2|...)\s+(.*)$", stem, re.I)` on a cleaned stem
(no leading whitespace, single interior spaces): succeeds when the
lowered stem starts with one of the words followed by a space; returns
the lowered matched word (`m.group(1).lower()`) and the original-case
remainder (`m.group(2)`). -/
def matchLeadingAux (words : List String) (stem : String) : Option (String × String) :=
  words.findSome? fun w =>
    if strStartsWith (lowerStr stem) (w ++ " ") then
      some (w, strDrop stem (w.toList.length + 1))
    else none

/-- The BE auxiliaries of the yes/no rewriter. -/
def BE_WORDS : List String := ["is", "are", "was", "were"]

/-- The DO auxiliaries of the yes/no rewriter. -/
def DO_WORDS : List String := ["do", "does", "did"]

/-- The modal auxiliaries of the yes/no rewriter. -/
def MODAL_WORDS : List String :=
  ["can", "could", "will", "would", "should", "may", "might", "must"]

/-- The HAVE auxiliaries of the yes/no rewriter. -/
def HAVE_WORDS : List String := ["has", "have", "had"]

/-- `_qa_to_statement_yesno(q, a)`: clean both sides, read the polarity
off the lowered first answer token, strip a trailing `?`, rewrite by the
first matching auxiliary pattern (BE / DO / MODAL / HAVE, else the bare
stem).  Every branch returns the first whitespace token of the cleaned
answer as the anchor. -/
def qaToStatementYesno (q a : String) : String × String :=
  let q' := clean q
  let a' := clean a
  if q' = "" then ("", "")
  else
    let ft := firstWord a'
    let polarity :=
      if YES_WORDS.contains (lowerStr ft) then true
      else if NO_WORDS.contains (lowerStr ft) then false
      else true
    let stem := if strEndsWith q' "?" then strDropRight q' 1 else q'
    match matchLeadingAux BE_WORDS stem with
    | some (be, rest) =>
        if polarity then (pyStrip (rest ++ "."), ft)
        else
          match splitWords rest with
          | p1 :: p2 :: ps =>
              (pyStrip (p1 ++ " " ++ be ++ " not " ++ joinWords (p2 :: ps) ++ "."), ft)
          | _ => (pyStrip (rest ++ " not."), ft)
    | none =>
      match matchLeadingAux DO_WORDS stem with
      | some (_, rest) =>
          if polarity then (pyStrip (rest ++ "."), ft)
          else
            match splitWords rest with
            | p1 :: p2 :: ps =>
                (pyStrip (p1 ++ " does not " ++ joinWords (p2 :: ps) ++ "."), ft)
            | _ => (pyStrip ("not " ++ rest ++ "."), ft)
      | none =>
        match matchLeadingAux MODAL_WORDS stem with
        | some (modal, rest) =>
            if polarity then (pyStrip (rest ++ "."), ft)
            else
              let neg := if modal = "can" then "cannot" else modal ++ " not"
              (pyStrip (rest ++ " " ++ neg ++ "."), ft)
        | none =>
          match matchLeadingAux HAVE_WORDS stem with
          | some (aux, rest) =>
              if polarity then (pyStrip (rest ++ "."), ft)
              else (pyStrip (aux ++ " not " ++ rest ++ "."), ft)
          | none => (pyStrip (stem ++ "."), ft)

/-- Word characters of the regex `\b` boundary (`\w`). -/
def isWordChar (c : Char) : Bool := c.isAlphanum || c = '_'

/-- The auxiliaries of `_is_yesno_question`, in source order. -/
def AUX_WORDS : List String :=
  ["is", "are", "was", "were", "do", "does", "did", "has", "have", "had",
   "can", "could", "will", "would", "should", "may", "might", "must"]

/-- `_is_yesno_question(q)`: `^\s*(is|are|...)\b` case-insensitively. -/
def isYesnoQuestion (q : String) : Bool :=
  let cs := (q.toList.map Char.toLower).dropWhile Char.isWhitespace
  AUX_WORDS.any fun w =>
    w.toList.isPrefixOf cs &&
      (match cs.drop w.toList.length with
       | [] => true
       | c :: _ => !isWordChar c)

/-- The wh-words of `_is_wh_question`, in source order. -/
def WH_WORDS : List String :=
  ["who", "what", "where", "when", "which", "how", "why"]

/-- `_is_wh_question(q)`: `^\s*(who|what|...)\b` case-insensitively. -/
def isWhQuestion (q : String) : Bool :=
  let cs := (q.toList.map Char.toLower).dropWhile Char.isWhitespace
  WH_WORDS.any fun w =>
    w.toList.isPrefixOf cs &&
      (match cs.drop w.toList.length with
       | [] => true
       | c :: _ => !isWordChar c)

/-- `a_short`: the cleaned answer itself when at most 80 characters,
else its segment before the first `.` (`a.split(".")[0]`). -/
def aShortOf (a : String) : String :=
  if a.toList.length ≤ 80 then a
  else ⟨a.toList.takeWhile (fun c => !(c == '.'))⟩

/-- `re.match(r"^\s*{lead}(w1|w2|...)\s+(.*)\?\s*$", q, re.I)` on a
cleaned question: returns the lowered alternation word and the
original-case capture before the final `?`. -/
def matchWh (lead : String) (words : List String) (q : String) : Option (String × String) :=
  let ql := lowerStr q
  if strEndsWith ql "?" then
    words.findSome? fun w =>
      let pre := lead ++ w ++ " "
      if strStartsWith ql pre then
        some (w, strDropRight (strDrop q pre.toList.length) 1)
      else none
  else none

/-- `_qa_to_statement_wh(q, a)`: clean both sides, truncate the answer to
`a_short`, then try the who / what / where / when / how-many / how-much
templates in order, falling back to `"{q} {a_short}."`.  Every branch
returns the cleaned answer as the anchor. -/
def qaToStatementWh (q a : String) : String × String :=
  let q' := clean q
  let a' := clean a
  let aShort := aShortOf a'
  if aShort = "" then ("", "")
  else
    let ql := lowerStr q'
    if strStartsWith ql "who " && strEndsWith ql "?" then
      (pyStrip (aShort ++ " " ++ strDropRight (strDrop q' 4) 1 ++ "."), a')
    else
      match matchWh "what " ["is", "are"] q' with
      | some (cop, x) => (pyStrip (x ++ " " ++ cop ++ " " ++ aShort ++ "."), a')
      | none =>
        match matchWh "where " ["is", "was", "are", "were"] q' with
        | some (cop, x) =>
            (pyStrip (x ++ " " ++ cop ++ " located in " ++ aShort ++ "."), a')
        | none =>
          match matchWh "when " ["did", "was", "were", "is"] q' with
          | some (_, x) => (pyStrip (x ++ " in " ++ aShort ++ "."), a')
          | none =>
            if strStartsWith ql "how many " && strEndsWith ql "?" then
              (pyStrip ("There are " ++ aShort ++ " "
                ++ strDropRight (strDrop q' 9) 1 ++ "."), a')
            else if strStartsWith ql "how much " && strEndsWith ql "?" then
              (pyStrip ("The amount is " ++ aShort ++ "."), a')
            else (pyStrip (q' ++ " " ++ aShort) ++ ".", a')

/-- One item of the splitter output: `{"factual_statement": ...,
"original_substring": ..., "origin": ...}`. -/
structure SplitItem where
  factual_statement : String
  original_substring : String
  origin : String
deriving DecidableEq, Repr

/-- The dedup key `(item["factual_statement"].strip().lower(),
item["original_substring"])`. -/
def itemKey (it : SplitItem) : String × String :=
  (lowerStr (pyStrip it.factual_statement), it.original_substring)

/-- The final loop of `split_en_general`: `seen` is the key set, `dedup`
the output being built; each new key is appended, and the loop `break`s
as soon as `len(dedup) >= max_items` (the check runs after each item). -/
def dedupLoop (seen : List (String × String)) (dedup : List SplitItem)
    (maxItems : Nat) : List SplitItem → List SplitItem
  | [] => dedup
  | item :: rest =>
      let key := itemKey item
      let seen' := if key ∈ seen then seen else key :: seen
      let dedup' := if key ∈ seen then dedup else dedup ++ [item]
      if maxItems ≤ dedup'.length then dedup' else dedupLoop seen' dedup' maxItems rest

/-- The deduplicate-and-cap stage of `split_en_general`, applied to the
list the preceding stages appended. -/
def dedupCap (out : List SplitItem) (maxItems : Nat) : List SplitItem :=
  dedupLoop [] [] maxItems out

/-- Structural reformulation of `dedupLoop` that returns only the newly
appended items; `count` tracks `len(dedup)` of the accumulator version. -/
def dedupRun (seen : List (String × String)) (maxItems count : Nat) :
    List SplitItem → List SplitItem
  | [] => []
  | item :: rest =>
      let key := itemKey item
      if key ∈ seen then
        (if maxItems ≤ count then [] else dedupRun seen maxItems count rest)
      else
        item :: (if maxItems ≤ count + 1 then []
          else dedupRun (key :: seen) maxItems (count + 1) rest)

/-! ## Claim C7: splitter deduplication and cap -/

/-- The accumulator loop equals its structural reformulation. -/
theorem dedupLoop_eq_run : ∀ (l : List SplitItem) (seen : List (String × String))
    (dedup : List SplitItem) (maxItems : Nat),
    dedupLoop seen dedup maxItems l = dedup ++ dedupRun seen maxItems dedup.length l := by
  intro l
  induction l with
  | nil => intro seen dedup m; simp [dedupLoop, dedupRun]
  | cons item rest ih =>
      intro seen dedup m
      simp only [dedupLoop, dedupRun]
      by_cases hk : itemKey item ∈ seen
      · rw [if_pos hk, if_pos hk, if_pos hk]
        by_cases hb : m ≤ dedup.length
        · rw [if_pos hb, if_pos hb]
          simp
        · rw [if_neg hb, if_neg hb]
          exact ih seen dedup m
      · rw [if_neg hk, if_neg hk, if_neg hk]
        have hlen : (dedup ++ [item]).length = dedup.length + 1 := by simp
        by_cases hb : m ≤ dedup.length + 1
        · rw [if_pos (hlen ▸ hb : m ≤ (dedup ++ [item]).length), if_pos hb]
        · rw [if_neg (fun h => hb (hlen ▸ h)), if_neg hb]
          rw [ih (itemKey item :: seen) (dedup ++ [item]) m, hlen]
          simp

/-- No item emitted by `dedupRun` has a key already in `seen`. -/
theorem dedupRun_not_seen : ∀ (l : List SplitItem) (seen : List (String × String))
    (m c : Nat), ∀ x ∈ dedupRun seen m c l, itemKey x ∉ seen := by
  intro l
  induction l with
  | nil => intro seen m c x hx; cases hx
  | cons item rest ih =>
      intro seen m c x hx
      simp only [dedupRun] at hx
      by_cases hk : itemKey item ∈ seen
      · rw [if_pos hk] at hx
        by_cases hb : m ≤ c
        · rw [if_pos hb] at hx; cases hx
        · rw [if_neg hb] at hx; exact ih seen m c x hx
      · rw [if_neg hk] at hx
        rcases List.mem_cons.mp hx with h | h
        · subst h; exact hk
        · by_cases hb : m ≤ c + 1
          · rw [if_pos hb] at h; cases h
          · rw [if_neg hb] at h
            intro hmem
            exact ih (itemKey item :: seen) m (c + 1) x h (List.mem_cons_of_mem _ hmem)

/-- The emitted items have pairwise distinct keys. -/
theorem dedupRun_pairwise : ∀ (l : List SplitItem) (seen : List (String × String))
    (m c : Nat),
    List.Pairwise (fun a b => itemKey a ≠ itemKey b) (dedupRun seen m c l) := by
  intro l
  induction l with
  | nil => intro seen m c; exact List.Pairwise.nil
  | cons item rest ih =>
      intro seen m c
      simp only [dedupRun]
      by_cases hk : itemKey item ∈ seen
      · rw [if_pos hk]
        by_cases hb : m ≤ c
        · rw [if_pos hb]; exact List.Pairwise.nil
        · rw [if_neg hb]; exact ih seen m c
      · rw [if_neg hk]
        by_cases hb : m ≤ c + 1
        · rw [if_pos hb]
          exact List.pairwise_singleton _ _
        · rw [if_neg hb]
          refine List.Pairwise.cons ?_ (ih (itemKey item :: seen) m (c + 1))
          intro y hy heq
          exact dedupRun_not_seen rest (itemKey item :: seen) m (c + 1) y hy
            (heq ▸ List.mem_cons_self _ _)

/-- The emitted items form a sublist of the input (order preserved). -/
theorem dedupRun_sublist : ∀ (l : List SplitItem) (seen : List (String × String))
    (m c : Nat), List.Sublist (dedupRun seen m c l) l := by
  intro l
  induction l with
  | nil => intro seen m c; exact List.Sublist.refl []
  | cons item rest ih =>
      intro seen m c
      simp only [dedupRun]
      by_cases hk : itemKey item ∈ seen
      · rw [if_pos hk]
        by_cases hb : m ≤ c
        · rw [if_pos hb]; exact List.nil_sublist _
        · rw [if_neg hb]; exact List.Sublist.cons item (ih seen m c)
      · rw [if_neg hk]
        by_cases hb : m ≤ c + 1
        · rw [if_pos hb]
          exact List.Sublist.cons₂ item (List.nil_sublist rest)
        · rw [if_neg hb]
          exact List.Sublist.cons₂ item (ih (itemKey item :: seen) m (c + 1))

/-- Below the cap, the count plus the number of emitted items never
exceeds the cap. -/
theorem dedupRun_length : ∀ (l : List SplitItem) (seen : List (String × String))
    (m c : Nat), c < m → c + (dedupRun seen m c l).length ≤ m := by
  intro l
  induction l with
  | nil => intro seen m c hc; simp [dedupRun]; omega
  | cons item rest ih =>
      intro seen m c hc
      simp only [dedupRun]
      by_cases hk : itemKey item ∈ seen
      · rw [if_pos hk]
        by_cases hb : m ≤ c
        · omega
        · rw [if_neg hb]; exact ih seen m c hc
      · rw [if_neg hk]
        by_cases hb : m ≤ c + 1
        · rw [if_pos hb]; simp; omega
        · rw [if_neg hb]
          have h := ih (itemKey item :: seen) m (c + 1) (by omega)
          simp only [List.length_cons]
          omega

/-- Every emitted item is the first occurrence of its key in the input
(no earlier input item shares its key), and its key was unseen. -/
theorem dedupRun_first_occ : ∀ (l : List SplitItem) (seen : List (String × String))
    (m c : Nat), ∀ x ∈ dedupRun seen m c l,
    ∃ pre post, l = pre ++ x :: post ∧ itemKey x ∉ seen
      ∧ ∀ y ∈ pre, itemKey y ≠ itemKey x := by
  intro l
  induction l with
  | nil => intro seen m c x hx; cases hx
  | cons item rest ih =>
      intro seen m c x hx
      simp only [dedupRun] at hx
      by_cases hk : itemKey item ∈ seen
      · rw [if_pos hk] at hx
        by_cases hb : m ≤ c
        · rw [if_pos hb] at hx; cases hx
        · rw [if_neg hb] at hx
          obtain ⟨pre, post, heq, hnot, hpre⟩ := ih seen m c x hx
          refine ⟨item :: pre, post, by rw [heq]; rfl, hnot, ?_⟩
          intro y hy
          rcases List.mem_cons.mp hy with h | h
          · subst h; intro heq'; exact hnot (heq' ▸ hk)
          · exact hpre y h
      · rw [if_neg hk] at hx
        rcases List.mem_cons.mp hx with h | h
        · subst h
          exact ⟨[], rest, rfl, hk, by intro y hy; cases hy⟩
        · by_cases hb : m ≤ c + 1
          · rw [if_pos hb] at h; cases h
          · rw [if_neg hb] at h
            obtain ⟨pre, post, heq, hnot, hpre⟩ := ih (itemKey item :: seen) m (c + 1) x h
            have hne : itemKey x ∉ seen := fun hm => hnot (List.mem_cons_of_mem _ hm)
            have hnk : itemKey item ≠ itemKey x := fun heq' =>
              hnot (heq' ▸ List.mem_cons_self _ _)
            refine ⟨item :: pre, post, by rw [heq]; rfl, hne, ?_⟩
            intro y hy
            rcases List.mem_cons.mp hy with h' | h'
            · subst h'; exact hnk
            · exact hpre y h'

/-- `dedupRun` is the identity on an already deduplicated list that fits
under the cap (with all keys unseen). -/
theorem dedupRun_id : ∀ (l : List SplitItem) (seen : List (String × String))
    (m c : Nat),
    (∀ x ∈ l, itemKey x ∉ seen) →
    List.Pairwise (fun a b => itemKey a ≠ itemKey b) l →
    c + l.length ≤ m →
    dedupRun seen m c l = l := by
  intro l
  induction l with
  | nil => intro seen m c _ _ _; rfl
  | cons item rest ih =>
      intro seen m c hseen hpair hlen
      simp only [dedupRun]
      rw [if_neg (hseen item (List.mem_cons_self _ _))]
      by_cases hb : m ≤ c + 1
      · rw [if_pos hb]
        have hrest : rest.length = 0 := by
          simp only [List.length_cons] at hlen; omega
        rw [List.length_eq_zero.mp hrest]
      · rw [if_neg hb]
        congr 1
        apply ih (itemKey item :: seen) m (c + 1)
        · intro x hx hmem
          rcases List.mem_cons.mp hmem with h | h
          · exact (List.pairwise_cons.mp hpair).1 x hx h.symm
          · exact hseen x (List.mem_cons_of_mem _ hx) h
        · exact (List.pairwise_cons.mp hpair).2
        · simp only [List.length_cons] at hlen; omega

/-- Counterexample to C7 as stated: with `max_items = 0` the cap check
runs only after the first item has been appended, so one item is
returned and the output length exceeds `max_items`. -/
theorem claim7_splitter_dedup_cap_counterexample :
    dedupCap [⟨"A", "x", "answer"⟩] 0 = [⟨"A", "x", "answer"⟩]
    ∧ ¬ ((dedupCap [⟨"A", "x", "answer"⟩] 0).length ≤ 0) :=
  ⟨by decide, by decide⟩

/-- C7 (amended). For every pre-dedup list and every `max_items >= 1`,
the dedup-and-cap stage emits items with pairwise distinct keys
(lowercased stripped `factual_statement`, `original_substring`), as a
sublist of the input (first-occurrence order preserved), of length at
most `max_items`, each emitted item being the first occurrence of its
key; and the stage is idempotent.  (With `max_items = 0` the length
bound fails, see the counterexample.)  Determinism of the splitter is
immediate: the embedding is a pure function. -/
theorem claim7_splitter_dedup_cap_amended (out : List SplitItem) (maxItems : Nat)
    (hmax : 1 ≤ maxItems) :
    List.Pairwise (fun a b => itemKey a ≠ itemKey b) (dedupCap out maxItems)
    ∧ List.Sublist (dedupCap out maxItems) out
    ∧ (dedupCap out maxItems).length ≤ maxItems
    ∧ (∀ x ∈ dedupCap out maxItems, ∃ pre post, out = pre ++ x :: post
        ∧ ∀ y ∈ pre, itemKey y ≠ itemKey x)
    ∧ dedupCap (dedupCap out maxItems) maxItems = dedupCap out maxItems := by
  have hrun : dedupCap out maxItems = dedupRun [] maxItems 0 out := by
    unfold dedupCap
    rw [dedupLoop_eq_run]
    rfl
  refine ⟨?_, ?_, ?_, ?_, ?_⟩
  · rw [hrun]; exact dedupRun_pairwise out [] maxItems 0
  · rw [hrun]; exact dedupRun_sublist out [] maxItems 0
  · rw [hrun]
    have h := dedupRun_length out [] maxItems 0 (by omega)
    omega
  · rw [hrun]
    intro x hx
    obtain ⟨pre, post, heq, _, hpre⟩ := dedupRun_first_occ out [] maxItems 0 x hx
    exact ⟨pre, post, heq, hpre⟩
  · conv_lhs => rw [hrun]
    show dedupCap (dedupRun [] maxItems 0 out) maxItems = dedupCap out maxItems
    unfold dedupCap
    rw [dedupLoop_eq_run, dedupLoop_eq_run]
    simp only [List.nil_append, List.length_nil]
    rw [dedupRun_id (dedupRun [] maxItems 0 out) [] maxItems 0
      (fun x _ hm => by cases hm)
      (dedupRun_pairwise out [] maxItems 0)
      (by have h := dedupRun_length out [] maxItems 0 (by omega); omega)]

/-- Witness for the amended C7 at a concrete input (duplicate key
`("a", "x")` removed, cap respected). -/
theorem claim7_splitter_dedup_cap_amended_witness :
    (dedupCap [⟨"A", "x", "answer"⟩, ⟨" a ", "x", "answer"⟩, ⟨"B", "y", "answer"⟩] 30).length
      ≤ 30 :=
  (claim7_splitter_dedup_cap_amended
    [⟨"A", "x", "answer"⟩, ⟨" a ", "x", "answer"⟩, ⟨"B", "y", "answer"⟩] 30
    (by decide)).2.2.1

/-! ## Claim C8: yes/no-question anchor -/

/-- Counterexample to C8 as stated: for the spec's own example the
produced statement drops the copula — the BE-affirmative rewrite returns
`"{rest}."`, not a re-inflected clause — so the statement is
`"Paris the capital of France."`, not `"Paris is the capital of France."`
(the anchor `"Yes,"` part is as claimed). -/
theorem claim8_yesno_anchor_counterexample :
    qaToStatementYesno "Is Paris the capital of France?" "Yes, Paris is the capital."
      = ("Paris the capital of France.", "Yes,")
    ∧ "Paris the capital of France." ≠ "Paris is the capital of France." :=
  ⟨by decide, by decide⟩

/-- C8 (amended). For every yes/no-style question and every answer whose
cleaned form is non-empty, the QA-derived anchor is the first
whitespace-delimited token of the *cleaned* (whitespace-collapsed,
ellipsis-replaced) answer — which coincides with the first token of the
raw answer unless that token contains an ellipsis glyph. -/
theorem claim8_yesno_anchor_amended (q a : String)
    (hyes : isYesnoQuestion (clean q) = true) (ha : clean a ≠ "") :
    (qaToStatementYesno q a).2 = firstWord (clean a) := by
  have hq : clean q ≠ "" := by
    intro h
    rw [h] at hyes
    exact absurd hyes (by decide)
  unfold qaToStatementYesno
  rw [if_neg hq]
  dsimp only
  repeat' split
  all_goals rfl

/-- Witness for the amended C8 at the spec's example input. -/
theorem claim8_yesno_anchor_amended_witness :
    (qaToStatementYesno "Is Paris the capital of France?" "Yes, Paris is the capital.").2
      = firstWord (clean "Yes, Paris is the capital.") :=
  claim8_yesno_anchor_amended _ _ (by decide) (by decide)

/-! ## Claim C9: wh-question anchor -/

/-- Counterexample to C9 as stated: the wh anchor is the *cleaned*
answer, not the answer text as given — a double space in the answer is
collapsed in the emitted `original_substring`. -/
theorem claim9_wh_anchor_counterexample :
    qaToStatementWh "What is X?" "a  b" = ("X is a b.", "a b")
    ∧ "a b" ≠ "a  b" :=
  ⟨by decide, by decide⟩

/-- C9 (amended). For every wh-style question and every answer for which
a statement is produced (non-empty `a_short`), the QA-derived anchor is
the full, untruncated *cleaned* (whitespace-normalized) answer text —
never the truncated `a_short`, but also not the raw answer as given. -/
theorem claim9_wh_anchor_amended (q a : String)
    (hwh : isWhQuestion (clean q) = true)
    (h : aShortOf (clean a) ≠ "") :
    (qaToStatementWh q a).2 = clean a := by
  unfold qaToStatementWh
  rw [if_neg h]
  dsimp only
  repeat' split
  all_goals rfl

/-- Witness for the amended C9. -/
theorem claim9_wh_anchor_amended_witness :
    (qaToStatementWh "What is X?" "a  b").2 = clean "a  b" :=
  claim9_wh_anchor_amended _ _ (by decide) (by decide)
